import Mathlib

/-!
Verification of the tech-news ingestion pipeline: a shallow embedding of
`app/fetcher.py` (`fetch_rss`, `fetch_full_content`), the scheduler backoff
loop of `app/main.py` (`schedule_fetch`), and the sitemap seeder of
`app/seeder.py` (`parse_sitemap_urls`, the summary rule of `seed_articles`).
Network and database effects are modelled by explicit oracles; Python strings
are modelled at the character level.
-/

namespace TechNews

/-! Character-level string operations with Python slicing/strip semantics. -/

/-- Number of characters of a string (Python `len`). -/
def strLen (s : String) : Nat := s.data.length

/-- Python `s.startswith(pfx)`: the characters of `pfx` are a prefix of `s`. -/
def strStartsWith (pfx s : String) : Bool := pfx.data.isPrefixOf s.data

/-- Python `s[n:]`: drop the first `n` characters. -/
def strDropChars (s : String) (n : Nat) : String := ⟨s.data.drop n⟩

/-- Python `s[:n]`: take the first `n` characters. -/
def strTakeChars (s : String) (n : Nat) : String := ⟨s.data.take n⟩

/-- Python `s.strip()`: remove whitespace from both ends. -/
def strTrim (s : String) : String :=
  ⟨((s.data.dropWhile Char.isWhitespace).reverse.dropWhile Char.isWhitespace).reverse⟩

/-! Datetimes and feedparser values. -/

/-- A datetime value (`datetime.datetime`): the six fields the code reads. -/
structure DT where
  year : Nat
  month : Nat
  day : Nat
  hour : Nat
  minute : Nat
  second : Nat
deriving DecidableEq, Repr

/-- A `time.struct_time` as read by `fetch_rss` (the six consumed fields). -/
structure StructTime where
  tm_year : Nat
  tm_mon : Nat
  tm_mday : Nat
  tm_hour : Nat
  tm_min : Nat
  tm_sec : Nat
deriving DecidableEq, Repr

/-- The `datetime(...)` built from a struct time in `fetch_rss` lines 95-102. -/
def dtOfStructTime (t : StructTime) : DT :=
  ⟨t.tm_year, t.tm_mon, t.tm_mday, t.tm_hour, t.tm_min, t.tm_sec⟩

/-- A dynamically typed Python attribute value: either a `struct_time` or
some other value of which only truthiness matters. -/
inductive PyVal where
  | st (t : StructTime)
  | other (truthy : Bool)
deriving DecidableEq, Repr

/-- Python truthiness: a `struct_time` (non-empty tuple) is always truthy. -/
def PyVal.isTruthy : PyVal → Bool
  | .st _ => true
  | .other b => b

/-- Python `a or b` on two optional attribute values (`getattr(...,None)`). -/
def pyOr (a b : Option PyVal) : Option PyVal :=
  match a with
  | some v => if v.isTruthy then some v else b
  | none => b

/-- One element of an entry's `enclosures` list: a dict with an optional
`href` key, or a non-dict value. -/
structure EncItem where
  isDict : Bool
  href : Option String
deriving DecidableEq, Repr

/-- A feedparser entry as consumed by `fetch_rss`: each field is `none` when
the attribute is absent (`getattr` default). -/
structure Entry where
  link : Option String
  title : Option String
  published_parsed : Option PyVal
  updated_parsed : Option PyVal
  enclosures : Option (List EncItem)
  summary : Option String
  description : Option String
deriving DecidableEq, Repr

/-- Publication date logic of `fetch_rss` lines 89-104:
`getattr(entry,"published_parsed",None) or getattr(entry,"updated_parsed",None)`,
then the six-field `datetime` if the result is a `struct_time`, else now. -/
def entryPubDate (e : Entry) (now : DT) : DT :=
  match pyOr e.published_parsed e.updated_parsed with
  | some (.st t) => dtOfStructTime t
  | _ => now

/-- Image logic of `fetch_rss` lines 106-112: the `href` of the first
enclosure when the enclosures attribute is a non-empty list of dicts. -/
def entryImageUrl (e : Entry) : Option String :=
  match e.enclosures with
  | some (first :: _) => if first.isDict then first.href else none
  | _ => none

/-- Summary logic of `fetch_rss` lines 114-117:
`getattr(entry,"summary","") or getattr(entry,"description","")`. -/
def entrySummary (e : Entry) : String :=
  let s := e.summary.getD ""
  if s = "" then e.description.getD "" else s

/-- The effective link of an entry: Python `if not link: continue` skips both
a missing link and an empty-string link. -/
def effLink (e : Entry) : Option String :=
  match e.link with
  | none => none
  | some l => if l = "" then none else some l

/-! The articles table and its operations. -/

/-- A row of the `articles` table (`app/models.py`). -/
structure Row where
  id : Nat
  title : String
  link : String
  pub_date : DT
  summary : String
  content : String
  image_url : Option String
  fetched_at : DT
deriving DecidableEq, Repr

/-- Database state: the rows plus the next server-generated primary key. -/
structure DB where
  rows : List Row
  nextId : Nat
deriving DecidableEq, Repr

/-- The dedup query of `fetch_rss` lines 83-86: does a row with this link exist? -/
def existsByLink (db : DB) (l : String) : Bool :=
  db.rows.any (fun r => r.link == l)

/-- Number of rows carrying a given link. -/
def countLink (db : DB) (l : String) : Nat :=
  db.rows.countP (fun r => r.link == l)

/-- A successful `insert(articles).values(...)`: append the row, bump the key. -/
def insertRow (db : DB) (r : Row) : DB :=
  ⟨db.rows ++ [r], db.nextId + 1⟩

/-- The `update(articles).where(id==article_id).values(content=..,fetched_at=..)`
of `fetch_full_content` lines 36-42. -/
def updateContent (db : DB) (id : Nat) (text : String) (now : DT) : DB :=
  ⟨db.rows.map (fun r =>
      if r.id = id then { r with content := text, fetched_at := now } else r),
   db.nextId⟩

/-- Well-formed database: every stored id is below the next fresh id. -/
def dbWF (db : DB) : Prop := ∀ r ∈ db.rows, r.id < db.nextId

/-! Oracle environments for the effectful code. -/

/-- Oracles consumed inside one ingestion run: per-link insert failures
(unique-constraint races); the page fetch (`none` = network error or
non-success status, per `raise_for_status`); the newspaper extraction
(`none` = `parse()` raised, `some t` = extracted text `t`); per-id update
failures; and the two `datetime.now` readings. -/
structure IngestEnv where
  insertFails : String → Bool
  page : String → Option String
  parseExtract : String → String → Option String
  updateFails : Nat → Bool
  nowIngest : DT
  nowUpdate : DT

/-- The result of `feedparser.parse`. -/
structure Feed where
  bozo : Bool
  entries : List Entry

/-- Environment of a whole `fetch_rss` run: the feed download (`none` =
HTTP/network failure), the feed parser, and the ingestion oracles. -/
structure FetchEnv where
  feedDownload : Option String
  parseFeed : String → Feed
  ingest : IngestEnv

/-! `fetch_full_content` (fetcher.py lines 18-49). -/

/-- Embedding of `fetch_full_content`: fetch the page (failure returns
`none`, db untouched), parse and extract text (failure returns `none`, db
untouched), then update content and `fetched_at`; an update failure also
returns `none` with the db untouched. -/
def fetch_full_content (env : IngestEnv) (db : DB) (article_id : Nat)
    (url : String) : Option String × DB :=
  match env.page url with
  | none => (none, db)
  | some html =>
    match env.parseExtract url html with
    | none => (none, db)
    | some full_text =>
      if env.updateFails article_id then (none, db)
      else (some full_text, updateContent db article_id full_text env.nowUpdate)

/-! `fetch_rss` (fetcher.py lines 52-142). -/

/-- The row built by the insert of `fetch_rss` lines 119-128. -/
def mkRow (env : IngestEnv) (db : DB) (e : Entry) (link title : String) : Row :=
  { id := db.nextId
    title := title
    link := link
    pub_date := entryPubDate e env.nowIngest
    summary := entrySummary e
    content := ""
    image_url := entryImageUrl e
    fetched_at := env.nowIngest }

/-- Result of the per-entry loop of `fetch_rss`: the new titles, the db
after the inserts, and the scheduled enrichment tasks `(article_id, link)`. -/
structure PERes where
  titles : List String
  db : DB
  tasks : List (Nat × String)
deriving Repr

/-- The per-entry loop of `fetch_rss` lines 76-136: skip entries without a
link, skip links already stored (dedup gate before insert), insert a row
with empty content on success and schedule its enrichment task, and on
insert failure log and skip the entry. -/
def processEntries (env : IngestEnv) : List Entry → DB → PERes
  | [], db => ⟨[], db, []⟩
  | e :: rest, db =>
    match e.link with
    | none => processEntries env rest db
    | some link =>
      if link = "" then processEntries env rest db
      else if existsByLink db link then processEntries env rest db
      else if env.insertFails link then processEntries env rest db
      else
        let title := e.title.getD "Untitled"
        let r := processEntries env rest (insertRow db (mkRow env db e link title))
        ⟨title :: r.titles, r.db, (db.nextId, link) :: r.tasks⟩

/-- The `asyncio.gather` of the enrichment tasks (lines 138-139): each task
touches only its own row id, so the gathered updates are order-independent
and are run in sequence here. -/
def runTasks (env : IngestEnv) : List (Nat × String) → DB → DB
  | [], db => db
  | (id, url) :: rest, db =>
    runTasks env rest (fetch_full_content env db id url).2

/-- Embedding of `fetch_rss`: a failed feed download or a bozo parse result
returns no new articles and leaves storage untouched; otherwise process at
most `max_articles` entries and then run the enrichment tasks. -/
def fetch_rss (env : FetchEnv) (db : DB) (max_articles : Nat) :
    List String × DB :=
  match env.feedDownload with
  | none => ([], db)
  | some body =>
    let feed := env.parseFeed body
    if feed.bozo then ([], db)
    else
      let r := processEntries env.ingest (feed.entries.take max_articles) db
      (r.titles, runTasks env.ingest r.tasks r.db)

/-! The scheduler backoff state machine (`schedule_fetch`, main.py 55-90). -/

/-- Initial backoff multiplier (`backoff = 1`). -/
def initBackoff : Nat := 1

/-- One scheduler cycle's backoff update: reset to 1 on success, else
`min(backoff * 2, 32)` (main.py lines 73 and 76). -/
def stepBackoff (b : Nat) (success : Bool) : Nat :=
  if success then 1 else min (b * 2) 32

/-- Backoff multipliers reachable by the scheduler loop from its start. -/
inductive ReachableBackoff : Nat → Prop where
  | init : ReachableBackoff initBackoff
  | step (b : Nat) (s : Bool) : ReachableBackoff b → ReachableBackoff (stepBackoff b s)

/-- The sleep computation of main.py lines 79-81:
`delay = base_interval * backoff` then `delay *= jitter`. -/
def sleepDelay (base : ℚ) (b : Nat) (j : ℚ) : ℚ :=
  (base * (b : ℚ)) * j

/-! The sitemap seeder (`parse_sitemap_urls`, seeder.py lines 19-63). -/

/-- The filter of seeder.py lines 44-48 on one `loc` text:
`url and url.startswith(prefix)` and a non-blank stripped suffix. -/
def keepUrl (pfx u : String) : Bool :=
  (u != "" && strStartsWith pfx u) && (strTrim (strDropChars u (strLen pfx)) != "")

/-- The `url/loc` walk of seeder.py lines 41-56, with its early return once
`MAX_ARTICLES_TO_SEED` URLs have been collected. -/
def sitemapLoop (pfx : String) (maxSeed : Nat) :
    List (Option String) → List String → List String
  | [], urls => urls
  | loc :: rest, urls =>
    match loc with
    | none => sitemapLoop pfx maxSeed rest urls
    | some url =>
      if url != "" && strStartsWith pfx url then
        if strTrim (strDropChars url (strLen pfx)) != "" then
          let urls' := urls ++ [url]
          if maxSeed ≤ urls'.length then urls'
          else sitemapLoop pfx maxSeed rest urls'
        else sitemapLoop pfx maxSeed rest urls
      else sitemapLoop pfx maxSeed rest urls

/-- A fetched and XML-parsed sitemap: whether the root is a `urlset`, and
the `url/loc` texts in document order (`none` = empty element text). -/
structure Sitemap where
  isUrlset : Bool
  locs : List (Option String)

/-- Embedding of `parse_sitemap_urls` after a successful fetch and XML
parse: a non-`urlset` root yields no URLs, else the `loc` walk. -/
def parse_sitemap_urls (pfx : String) (maxSeed : Nat) (sm : Sitemap) :
    List String :=
  if sm.isUrlset then sitemapLoop pfx maxSeed sm.locs [] else []

/-- Modelled from the spec's words for claim C7 (refinement comparison
only): keep the `loc` values that start with the prefix and have a
non-empty suffix after it, in order, up to the maximum. -/
def sitemapSpecSelect (pfx : String) (maxSeed : Nat)
    (locs : List (Option String)) : List String :=
  ((locs.filterMap id).filter
    (fun u => strStartsWith pfx u && (strDropChars u (strLen pfx) != ""))).take maxSeed

/-! The seeding summary rule (`seed_articles`, seeder.py lines 87-95). -/

/-- Embedding of seeder.py lines 87-95: `s0` is the extractor-provided
summary (empty when falsy), `full_content` the extracted body; fall back to
the trimmed first 200 characters of the body when the summary is empty, and
append `"..."` whenever the body exceeds 200 characters. -/
def seedSummary (s0 full_content : String) : String :=
  let summary := if s0 = "" && full_content != "" then
    strTrim (strTakeChars full_content 200) else s0
  if 200 < strLen full_content then summary ++ "..." else summary

/-- Modelled from the spec's words for claim C8 (refinement comparison
only): a non-empty extractor summary is stored as-is; otherwise the trimmed
first 200 characters with an ellipsis exactly when the body exceeds 200. -/
def seedSummarySpec (s0 full_content : String) : String :=
  if s0 != "" then s0
  else
    let t := strTrim (strTakeChars full_content 200)
    if 200 < strLen full_content then t ++ "..." else t

/-! Concrete instances used to exercise the theorems on explicit inputs. -/

/-- A fixed ingestion clock. -/
def nowW : DT := ⟨2024, 1, 1, 12, 0, 0⟩

/-- A fixed enrichment clock, later than `nowW`. -/
def nowW2 : DT := ⟨2024, 1, 1, 12, 30, 0⟩

/-- An environment where every network call and storage operation succeeds
and extraction yields the text `T`. -/
def envOkW : IngestEnv :=
  { insertFails := fun _ => false
    page := fun _ => some "<html><p>T</p></html>"
    parseExtract := fun _ _ => some "T"
    updateFails := fun _ => false
    nowIngest := nowW
    nowUpdate := nowW2 }

/-- Like `envOkW` but the extractor parses successfully and yields empty text. -/
def envEmptyW : IngestEnv := { envOkW with parseExtract := fun _ _ => some "" }

/-- Like `envOkW` but inserting the link `http://x/fail` raises. -/
def envFailInsW : IngestEnv :=
  { envOkW with insertFails := fun l => l == "http://x/fail" }

/-- A pre-existing stored row. -/
def rowW : Row := ⟨1, "Existing", "http://x/a", nowW, "s", "", none, nowW⟩

/-- A database holding `rowW`. -/
def dbW : DB := ⟨[rowW], 2⟩

/-- An empty database. -/
def dbEmptyW : DB := ⟨[], 1⟩

/-- A feed entry with a fresh link and a parsed published time. -/
def entryW : Entry :=
  { link := some "http://x/b"
    title := some "B"
    published_parsed := some (.st ⟨2024, 5, 1, 10, 0, 0⟩)
    updated_parsed := none
    enclosures := none
    summary := some "sum"
    description := none }

/-- `entryW` without a link. -/
def entryNoLinkW : Entry := { entryW with link := none }

/-- `entryW` pointing at the link whose insert fails under `envFailInsW`. -/
def entryFailW : Entry := { entryW with link := some "http://x/fail" }

/-- A fetch environment delivering a well-formed one-entry feed. -/
def fenvW : FetchEnv :=
  { feedDownload := some "body"
    parseFeed := fun _ => ⟨false, [entryW]⟩
    ingest := envOkW }

/-- A fetch environment whose feed download fails. -/
def fenvNoneW : FetchEnv := { fenvW with feedDownload := none }

/-- A fetch environment whose downloaded feed is malformed (bozo). -/
def fenvBozoW : FetchEnv :=
  { feedDownload := some "body", parseFeed := fun _ => ⟨true, []⟩, ingest := envOkW }

/-- A fetch environment using the failing-insert oracle. -/
def fenvFailW : FetchEnv :=
  { feedDownload := some "body", parseFeed := fun _ => ⟨false, []⟩, ingest := envFailInsW }

/-- A sitemap whose only location is the prefix followed by one space. -/
def smCexW : Sitemap := ⟨true, [some "http://prefix/ "]⟩

/-- The sitemap of the spec's seeding example. -/
def smExW : Sitemap :=
  ⟨true, [some "http://prefix/a", some "http://prefix/", some "http://other/b"]⟩

/-- A sitemap with more matching locations than the configured maximum. -/
def smWitW : Sitemap := ⟨true, [some "pa", some "p", some "pb", some "pc", some "qd"]⟩

/-- A 201-character article body. -/
def longBodyW : String := ⟨List.replicate 201 'a'⟩

/-! Preservation lemmas about the storage operations. -/

theorem exists_of_mem_rows {db : DB} {r : Row} (h : r ∈ db.rows) :
    existsByLink db r.link = true := by
  simp only [existsByLink, List.any_eq_true]
  exact ⟨r, h, by simp⟩

theorem existsByLink_insertRow (db : DB) (row : Row) (l : String)
    (h : existsByLink db l = true) : existsByLink (insertRow db row) l = true := by
  simp only [existsByLink, insertRow, List.any_append, Bool.or_eq_true]
  exact Or.inl h

theorem existsByLink_insert_self (db : DB) (row : Row) :
    existsByLink (insertRow db row) row.link = true := by
  simp [existsByLink, insertRow, List.any_append]

theorem mem_insertRow {db : DB} {r : Row} (h : r ∈ db.rows) (row : Row) :
    r ∈ (insertRow db row).rows := by
  simp only [insertRow, List.mem_append]
  exact Or.inl h

theorem existsByLink_updateContent (db : DB) (id : Nat) (t : String) (now : DT)
    (l : String) :
    existsByLink (updateContent db id t now) l = existsByLink db l := by
  simp only [existsByLink, updateContent, List.any_map]
  congr 1
  funext r
  by_cases h : r.id = id <;> simp [h, Function.comp]

theorem countLink_updateContent (db : DB) (id : Nat) (t : String) (now : DT)
    (l : String) :
    countLink (updateContent db id t now) l = countLink db l := by
  simp only [countLink, updateContent, List.countP_map]
  congr 1
  funext r
  by_cases h : r.id = id <;> simp [h, Function.comp]

theorem countLink_insertRow_ne (db : DB) (row : Row) (l : String)
    (h : ¬ row.link = l) : countLink (insertRow db row) l = countLink db l := by
  simp [countLink, insertRow, List.countP_append, List.countP_cons, h]

theorem mem_updateContent_of_ne {db : DB} {r : Row} (h : r ∈ db.rows)
    {id : Nat} (hne : ¬ r.id = id) (t : String) (now : DT) :
    r ∈ (updateContent db id t now).rows := by
  have h2 := List.mem_map_of_mem
    (fun x : Row => if x.id = id then { x with content := t, fetched_at := now } else x) h
  simpa [updateContent, hne] using h2

theorem existsByLink_fetch_full_content (env : IngestEnv) (db : DB) (id : Nat)
    (url l : String) :
    existsByLink (fetch_full_content env db id url).2 l = existsByLink db l := by
  cases hp : env.page url with
  | none => simp [fetch_full_content, hp]
  | some html =>
    cases hx : env.parseExtract url html with
    | none => simp [fetch_full_content, hp, hx]
    | some t =>
      by_cases hu : env.updateFails id <;>
        simp [fetch_full_content, hp, hx, hu, existsByLink_updateContent]

theorem countLink_fetch_full_content (env : IngestEnv) (db : DB) (id : Nat)
    (url l : String) :
    countLink (fetch_full_content env db id url).2 l = countLink db l := by
  cases hp : env.page url with
  | none => simp [fetch_full_content, hp]
  | some html =>
    cases hx : env.parseExtract url html with
    | none => simp [fetch_full_content, hp, hx]
    | some t =>
      by_cases hu : env.updateFails id <;>
        simp [fetch_full_content, hp, hx, hu, countLink_updateContent]

theorem mem_fetch_full_content_of_ne (env : IngestEnv) {db : DB} {r : Row}
    (h : r ∈ db.rows) {id : Nat} (hne : ¬ r.id = id) (url : String) :
    r ∈ (fetch_full_content env db id url).2.rows := by
  cases hp : env.page url with
  | none => simpa [fetch_full_content, hp] using h
  | some html =>
    cases hx : env.parseExtract url html with
    | none => simpa [fetch_full_content, hp, hx] using h
    | some t =>
      by_cases hu : env.updateFails id
      · simpa [fetch_full_content, hp, hx, hu] using h
      · simpa [fetch_full_content, hp, hx, hu] using
          mem_updateContent_of_ne h hne t env.nowUpdate

theorem existsByLink_runTasks (env : IngestEnv) :
    ∀ (ts : List (Nat × String)) (db : DB) (l : String),
      existsByLink (runTasks env ts db) l = existsByLink db l := by
  intro ts
  induction ts with
  | nil => intro db l; rfl
  | cons p rest ih =>
    intro db l
    obtain ⟨id, url⟩ := p
    simp only [runTasks]
    rw [ih, existsByLink_fetch_full_content]

theorem countLink_runTasks (env : IngestEnv) :
    ∀ (ts : List (Nat × String)) (db : DB) (l : String),
      countLink (runTasks env ts db) l = countLink db l := by
  intro ts
  induction ts with
  | nil => intro db l; rfl
  | cons p rest ih =>
    intro db l
    obtain ⟨id, url⟩ := p
    simp only [runTasks]
    rw [ih, countLink_fetch_full_content]

theorem mem_runTasks (env : IngestEnv) :
    ∀ (ts : List (Nat × String)) (db : DB) (r : Row),
      r ∈ db.rows → (∀ p ∈ ts, ¬ p.1 = r.id) → r ∈ (runTasks env ts db).rows := by
  intro ts
  induction ts with
  | nil => intro db r h _; exact h
  | cons p rest ih =>
    intro db r h hall
    obtain ⟨id, url⟩ := p
    simp only [runTasks]
    apply ih
    · exact mem_fetch_full_content_of_ne env h
        (fun he => hall (id, url) (List.mem_cons_self _ _) he.symm) url
    · intro q hq
      exact hall q (List.mem_cons_of_mem _ hq)

/-! Invariants of the per-entry loop. -/

theorem effLink_eq_some {e : Entry} {l : String} (h : effLink e = some l) :
    e.link = some l ∧ ¬ l = "" := by
  unfold effLink at h
  cases he : e.link with
  | none => rw [he] at h; cases h
  | some link =>
    rw [he] at h
    by_cases h0 : link = ""
    · simp [h0] at h
    · simp only [if_neg h0, Option.some.injEq] at h
      subst h
      exact ⟨rfl, h0⟩

theorem existsByLink_processEntries (env : IngestEnv) (l : String) :
    ∀ (es : List Entry) (db : DB), existsByLink db l = true →
      existsByLink (processEntries env es db).db l = true := by
  intro es
  induction es with
  | nil => intro db h; simpa [processEntries] using h
  | cons e rest ih =>
    intro db h
    cases he : e.link with
    | none => simpa [processEntries, he] using ih db h
    | some link =>
      by_cases h0 : link = ""
      · simpa [processEntries, he, h0] using ih db h
      · by_cases h1 : existsByLink db link
        · simpa [processEntries, he, h0, h1] using ih db h
        · by_cases h2 : env.insertFails link
          · simpa [processEntries, he, h0, h1, h2] using ih db h
          · simpa [processEntries, he, h0, h1, h2] using
              ih (insertRow db (mkRow env db e link (e.title.getD "Untitled")))
                (existsByLink_insertRow _ _ _ h)

theorem mem_processEntries (env : IngestEnv) :
    ∀ (es : List Entry) (db : DB) (r : Row), r ∈ db.rows →
      r ∈ (processEntries env es db).db.rows := by
  intro es
  induction es with
  | nil => intro db r h; simpa [processEntries] using h
  | cons e rest ih =>
    intro db r h
    cases he : e.link with
    | none => simpa [processEntries, he] using ih db r h
    | some link =>
      by_cases h0 : link = ""
      · simpa [processEntries, he, h0] using ih db r h
      · by_cases h1 : existsByLink db link
        · simpa [processEntries, he, h0, h1] using ih db r h
        · by_cases h2 : env.insertFails link
          · simpa [processEntries, he, h0, h1, h2] using ih db r h
          · simpa [processEntries, he, h0, h1, h2] using
              ih (insertRow db (mkRow env db e link (e.title.getD "Untitled"))) r
                (mem_insertRow h _)

theorem tasks_le_processEntries (env : IngestEnv) :
    ∀ (es : List Entry) (db : DB), ∀ p ∈ (processEntries env es db).tasks,
      db.nextId ≤ p.1 := by
  intro es
  induction es with
  | nil => intro db p hp; simp [processEntries] at hp
  | cons e rest ih =>
    intro db p hp
    cases he : e.link with
    | none =>
      rw [show processEntries env (e :: rest) db = processEntries env rest db by
        simp [processEntries, he]] at hp
      exact ih db p hp
    | some link =>
      by_cases h0 : link = ""
      · rw [show processEntries env (e :: rest) db = processEntries env rest db by
          simp [processEntries, he, h0]] at hp
        exact ih db p hp
      · by_cases h1 : existsByLink db link
        · rw [show processEntries env (e :: rest) db = processEntries env rest db by
            simp [processEntries, he, h0, h1]] at hp
          exact ih db p hp
        · by_cases h2 : env.insertFails link
          · rw [show processEntries env (e :: rest) db = processEntries env rest db by
              simp [processEntries, he, h0, h1, h2]] at hp
            exact ih db p hp
          · have htasks : (processEntries env (e :: rest) db).tasks
                = (db.nextId, link) :: (processEntries env rest
                    (insertRow db (mkRow env db e link (e.title.getD "Untitled")))).tasks := by
              simp [processEntries, he, h0, h1, h2]
            rw [htasks, List.mem_cons] at hp
            rcases hp with hp | hp
            · subst hp; exact Nat.le_refl _
            · have := ih (insertRow db (mkRow env db e link (e.title.getD "Untitled"))) p hp
              simp only [insertRow] at this
              omega

theorem countLink_processEntries (env : IngestEnv) (l : String) :
    ∀ (es : List Entry) (db : DB), existsByLink db l = true →
      countLink (processEntries env es db).db l = countLink db l := by
  intro es
  induction es with
  | nil => intro db h; simp [processEntries]
  | cons e rest ih =>
    intro db h
    cases he : e.link with
    | none => simpa [processEntries, he] using ih db h
    | some link =>
      by_cases h0 : link = ""
      · simpa [processEntries, he, h0] using ih db h
      · by_cases h1 : existsByLink db link
        · simpa [processEntries, he, h0, h1] using ih db h
        · by_cases h2 : env.insertFails link
          · simpa [processEntries, he, h0, h1, h2] using ih db h
          · have hne : ¬ (mkRow env db e link (e.title.getD "Untitled")).link = l := by
              intro hll
              simp only [mkRow] at hll
              subst hll
              exact h1 h
            have step := countLink_insertRow_ne db
              (mkRow env db e link (e.title.getD "Untitled")) l hne
            have tail := ih (insertRow db (mkRow env db e link (e.title.getD "Untitled")))
              (existsByLink_insertRow _ _ _ h)
            simpa [processEntries, he, h0, h1, h2, step] using tail

theorem saturated_processEntries (env : IngestEnv) :
    ∀ (es : List Entry) (db : DB), ∀ e ∈ es, ∀ l, effLink e = some l →
      existsByLink (processEntries env es db).db l = true
      ∨ env.insertFails l = true := by
  intro es
  induction es with
  | nil => intro db e he; cases he
  | cons e0 rest ih =>
    intro db e he l hl
    rcases List.mem_cons.mp he with he | he
    · subst he
      obtain ⟨hlink, h0⟩ := effLink_eq_some hl
      by_cases h1 : existsByLink db l
      · left
        simpa [processEntries, hlink, h0, h1] using
          existsByLink_processEntries env l rest db h1
      · by_cases h2 : env.insertFails l
        · right; exact h2
        · left
          have hself : existsByLink
              (insertRow db (mkRow env db e l (e.title.getD "Untitled"))) l = true := by
            simpa [mkRow] using
              existsByLink_insert_self db (mkRow env db e l (e.title.getD "Untitled"))
          simpa [processEntries, hlink, h0, h1, h2] using
            existsByLink_processEntries env l rest _ hself
    · cases he0 : e0.link with
      | none =>
        rw [show processEntries env (e0 :: rest) db = processEntries env rest db by
          simp [processEntries, he0]]
        exact ih db e he l hl
      | some link =>
        by_cases h0 : link = ""
        · rw [show processEntries env (e0 :: rest) db = processEntries env rest db by
            simp [processEntries, he0, h0]]
          exact ih db e he l hl
        · by_cases h1 : existsByLink db link
          · rw [show processEntries env (e0 :: rest) db = processEntries env rest db by
              simp [processEntries, he0, h0, h1]]
            exact ih db e he l hl
          · by_cases h2 : env.insertFails link
            · rw [show processEntries env (e0 :: rest) db = processEntries env rest db by
                simp [processEntries, he0, h0, h1, h2]]
              exact ih db e he l hl
            · have hdb : (processEntries env (e0 :: rest) db).db
                  = (processEntries env rest
                      (insertRow db (mkRow env db e0 link (e0.title.getD "Untitled")))).db := by
                simp [processEntries, he0, h0, h1, h2]
              rw [hdb]
              exact ih _ e he l hl

theorem noop_processEntries (env : IngestEnv) :
    ∀ (es : List Entry) (db : DB),
      (∀ e ∈ es, ∀ l, effLink e = some l →
        existsByLink db l = true ∨ env.insertFails l = true) →
      processEntries env es db = ⟨[], db, []⟩ := by
  intro es
  induction es with
  | nil => intro db _; rfl
  | cons e rest ih =>
    intro db hsat
    have htail : ∀ e' ∈ rest, ∀ l, effLink e' = some l →
        existsByLink db l = true ∨ env.insertFails l = true :=
      fun e' he' => hsat e' (List.mem_cons_of_mem _ he')
    cases he : e.link with
    | none => simpa [processEntries, he] using ih db htail
    | some link =>
      by_cases h0 : link = ""
      · simpa [processEntries, he, h0] using ih db htail
      · have hl : effLink e = some link := by simp [effLink, he, h0]
        rcases hsat e (List.mem_cons_self _ _) link hl with h1 | h2
        · simpa [processEntries, he, h0, h1] using ih db htail
        · by_cases h1 : existsByLink db link
          · simpa [processEntries, he, h0, h1] using ih db htail
          · simpa [processEntries, he, h0, h1, h2] using ih db htail

theorem content_processEntries (env : IngestEnv) :
    ∀ (es : List Entry) (db : DB), ∀ r ∈ (processEntries env es db).db.rows,
      r ∈ db.rows ∨ r.content = "" := by
  intro es
  induction es with
  | nil => intro db r h; left; simpa [processEntries] using h
  | cons e rest ih =>
    intro db r h
    cases he : e.link with
    | none => exact ih db r (by simpa [processEntries, he] using h)
    | some link =>
      by_cases h0 : link = ""
      · exact ih db r (by simpa [processEntries, he, h0] using h)
      · by_cases h1 : existsByLink db link
        · exact ih db r (by simpa [processEntries, he, h0, h1] using h)
        · by_cases h2 : env.insertFails link
          · exact ih db r (by simpa [processEntries, he, h0, h1, h2] using h)
          · have h' : r ∈ (processEntries env rest
                (insertRow db (mkRow env db e link (e.title.getD "Untitled")))).db.rows := by
              simpa [processEntries, he, h0, h1, h2] using h
            rcases ih _ r h' with hmem | hc
            · simp only [insertRow, List.mem_append, List.mem_singleton] at hmem
              rcases hmem with hmem | hmem
              · exact Or.inl hmem
              · right; rw [hmem]; rfl
            · exact Or.inr hc

/-! Characterization of the sitemap walk. -/

theorem sitemapLoop_spec (pfx : String) (maxSeed : Nat) :
    ∀ (locs : List (Option String)) (acc : List String), acc.length < maxSeed →
      sitemapLoop pfx maxSeed locs acc
        = acc ++ ((locs.filterMap id).filter (keepUrl pfx)).take (maxSeed - acc.length) := by
  intro locs
  induction locs with
  | nil => intro acc h; simp [sitemapLoop]
  | cons loc rest ih =>
    intro acc h
    cases loc with
    | none => simpa [sitemapLoop] using ih acc h
    | some url =>
      cases hA : (url != "" && strStartsWith pfx url) with
      | false =>
        have hk : keepUrl pfx url = false := by simp [keepUrl, hA]
        simpa [sitemapLoop, hA, List.filter_cons, hk] using ih acc h
      | true =>
        cases hB : (strTrim (strDropChars url (strLen pfx)) != "") with
        | false =>
          have hk : keepUrl pfx url = false := by simp [keepUrl, hB]
          simpa [sitemapLoop, hA, hB, List.filter_cons, hk] using ih acc h
        | true =>
          have hk : keepUrl pfx url = true := by simp [keepUrl, hA, hB]
          have hstep : sitemapLoop pfx maxSeed (some url :: rest) acc
              = if maxSeed ≤ (acc ++ [url]).length then acc ++ [url]
                else sitemapLoop pfx maxSeed rest (acc ++ [url]) := by
            simp [sitemapLoop, hA, hB]
          by_cases hm : maxSeed ≤ (acc ++ [url]).length
          · have hmeq : maxSeed - acc.length = 1 := by
              simp only [List.length_append, List.length_singleton] at hm
              omega
            rw [hstep, if_pos hm]
            simp [List.filterMap_cons, List.filter_cons, hk, hmeq]
          · have hlt : (acc ++ [url]).length < maxSeed := Nat.lt_of_not_le hm
            have hlt' : acc.length + 1 < maxSeed := by simpa using hlt
            have htail := ih (acc ++ [url]) hlt
            have harith : maxSeed - acc.length = (maxSeed - (acc.length + 1)) + 1 := by
              omega
            rw [hstep, if_neg hm, htail]
            simp only [List.length_append, List.length_singleton, harith]
            simp [List.filterMap_cons, List.filter_cons, hk, List.take_succ_cons,
              List.append_assoc]

set_option maxRecDepth 8000

/-! Claim theorems. -/

/-- Claim C5: the scheduler's backoff multiplier starts at 1, becomes
`min(backoff * 2, 32)` after a failed run (doubled, capped at 32), resets
to 1 after a successful run, every reachable multiplier is one of
1, 2, 4, 8, 16, 32 (hence never exceeds 32), and the sleep duration is
`base_interval * multiplier * jitter`. -/
theorem schedule_fetch_backoff_invariant :
    initBackoff = 1
    ∧ (∀ b, stepBackoff b true = 1)
    ∧ (∀ b, stepBackoff b false = min (b * 2) 32)
    ∧ (∀ b, ReachableBackoff b →
        (b = 1 ∨ b = 2 ∨ b = 4 ∨ b = 8 ∨ b = 16 ∨ b = 32) ∧ b ≤ 32)
    ∧ (∀ (base : ℚ) (b : Nat) (j : ℚ), sleepDelay base b j = base * ((b : ℚ) * j)) := by
  refine ⟨rfl, fun b => rfl, fun b => rfl, ?_,
    fun base b j => by rw [sleepDelay, mul_assoc]⟩
  intro b hb
  have hmem : b = 1 ∨ b = 2 ∨ b = 4 ∨ b = 8 ∨ b = 16 ∨ b = 32 := by
    induction hb with
    | init => left; rfl
    | step b' s hb' ih =>
      cases s with
      | true => simp [stepBackoff]
      | false => rcases ih with h | h | h | h | h | h <;> subst h <;> decide
  refine ⟨hmem, ?_⟩
  rcases hmem with h | h | h | h | h | h <;> omega

/-- Concrete check of claim C5: the multiplier 32 reached by five straight
failures from the start is in the allowed set and at most 32. -/
theorem schedule_fetch_backoff_invariant_witness :
    ((32 : Nat) = 1 ∨ (32 : Nat) = 2 ∨ (32 : Nat) = 4 ∨ (32 : Nat) = 8
      ∨ (32 : Nat) = 16 ∨ (32 : Nat) = 32) ∧ (32 : Nat) ≤ 32 :=
  schedule_fetch_backoff_invariant.2.2.2.1 32
    (ReachableBackoff.step 16 false (ReachableBackoff.step 8 false
      (ReachableBackoff.step 4 false (ReachableBackoff.step 2 false
        (ReachableBackoff.step 1 false ReachableBackoff.init)))))

/-- Claim C6: the stored `pub_date` of an inserted entry is exactly the
six-field datetime of its parsed published time when that is a struct
time; falls back to the parsed updated time when the published time is
absent; and is the ingestion clock when neither value is a struct time.
The last conjunct ties `entryPubDate` to the inserted row. -/
theorem entryPubDate_normalization (e : Entry) (now : DT) :
    (∀ t, e.published_parsed = some (.st t) → entryPubDate e now = dtOfStructTime t)
    ∧ (∀ t, (e.published_parsed = none ∨ e.published_parsed = some (.other false)) →
        e.updated_parsed = some (.st t) → entryPubDate e now = dtOfStructTime t)
    ∧ ((∀ t, ¬ e.published_parsed = some (.st t)) →
        (∀ t, ¬ e.updated_parsed = some (.st t)) → entryPubDate e now = now)
    ∧ (∀ (env : IngestEnv) (db : DB) (link title : String),
        (mkRow env db e link title).pub_date = entryPubDate e env.nowIngest) := by
  refine ⟨?_, ?_, ?_, fun env db link title => rfl⟩
  · intro t h
    simp [entryPubDate, pyOr, h, PyVal.isTruthy]
  · intro t hp hu
    rcases hp with hp | hp <;> simp [entryPubDate, pyOr, hp, hu, PyVal.isTruthy]
  · intro h1 h2
    cases hp : e.published_parsed with
    | none =>
      cases hu : e.updated_parsed with
      | none => simp [entryPubDate, pyOr, hp, hu]
      | some v =>
        cases v with
        | st t => exact absurd hu (h2 t)
        | other b => simp [entryPubDate, pyOr, hp, hu]
    | some v =>
      cases v with
      | st t => exact absurd hp (h1 t)
      | other b =>
        cases b with
        | true => simp [entryPubDate, pyOr, hp, PyVal.isTruthy]
        | false =>
          cases hu : e.updated_parsed with
          | none => simp [entryPubDate, pyOr, hp, hu, PyVal.isTruthy]
          | some v2 =>
            cases v2 with
            | st t => exact absurd hu (h2 t)
            | other b2 => simp [entryPubDate, pyOr, hp, hu, PyVal.isTruthy]

/-- Concrete check of claim C6: an entry whose `published_parsed` is the
struct time 2024-05-01 10:00:00 is stored with exactly that datetime. -/
theorem entryPubDate_normalization_witness :
    entryPubDate entryW nowW = dtOfStructTime ⟨2024, 5, 1, 10, 0, 0⟩ :=
  (entryPubDate_normalization entryW nowW).1 ⟨2024, 5, 1, 10, 0, 0⟩ rfl

/-- Claim C7 is false as stated: the code strips whitespace from the
suffix before testing it, so the location `http://prefix/ ` (non-empty,
all-blank suffix) is dropped by `parse_sitemap_urls` although the claim's
selection rule keeps it. -/
theorem parse_sitemap_urls_cex :
    parse_sitemap_urls "http://prefix/" 100 smCexW = []
    ∧ sitemapSpecSelect "http://prefix/" 100 smCexW.locs = ["http://prefix/ "]
    ∧ ¬ parse_sitemap_urls "http://prefix/" 100 smCexW
        = sitemapSpecSelect "http://prefix/" 100 smCexW.locs := by
  refine ⟨by decide, by decide, by decide⟩

/-- Claim C7 (amended): for a `urlset` sitemap and a configured maximum of
at least one, the seeder keeps exactly the locations that start with the
prefix and whose suffix after the prefix is non-empty after stripping
whitespace, in document order, truncated to the configured maximum; the
spec's concrete example yields exactly `http://prefix/a`. -/
theorem parse_sitemap_urls_selection (pfx : String) (maxSeed : Nat) (sm : Sitemap)
    (hroot : sm.isUrlset = true) (hmax : 1 ≤ maxSeed) :
    parse_sitemap_urls pfx maxSeed sm
      = ((sm.locs.filterMap id).filter (keepUrl pfx)).take maxSeed
    ∧ parse_sitemap_urls "http://prefix/" 100 smExW = ["http://prefix/a"] := by
  constructor
  · have h := sitemapLoop_spec pfx maxSeed sm.locs [] (by simp; omega)
    simpa [parse_sitemap_urls, hroot] using h
  · decide

/-- Concrete check of claim C7 (amended): with maximum 2, the walk keeps
the first two matching locations of five. -/
theorem parse_sitemap_urls_selection_witness :
    parse_sitemap_urls "p" 2 smWitW
      = ((smWitW.locs.filterMap id).filter (keepUrl "p")).take 2 :=
  (parse_sitemap_urls_selection "p" 2 smWitW rfl (by decide)).1

/-- Claim C8 is false as stated: the ellipsis is appended whenever the
body exceeds 200 characters, even when the extractor-provided summary was
used, so summary `S` with a 201-character body is stored as `S...`, not
as-is. -/
theorem seedSummary_cex :
    seedSummary "S" longBodyW = "S..."
    ∧ seedSummarySpec "S" longBodyW = "S"
    ∧ ¬ seedSummary "S" longBodyW = seedSummarySpec "S" longBodyW := by
  refine ⟨by decide, by decide, by decide⟩

/-- Claim C8 (amended): the stored summary is the extractor-provided
summary when non-empty and otherwise the trimmed first 200 characters of
the body, and the ellipsis is appended exactly when the body exceeds 200
characters — regardless of which source the summary came from. -/
theorem seedSummary_rule (s0 full_content : String) :
    seedSummary s0 full_content
      = (if 200 < strLen full_content
          then (if s0 = "" then strTrim (strTakeChars full_content 200) else s0) ++ "..."
          else (if s0 = "" then strTrim (strTakeChars full_content 200) else s0)) := by
  by_cases h0 : s0 = ""
  · by_cases hfc : full_content = ""
    · subst h0; subst hfc; decide
    · simp [seedSummary, h0, hfc]
  · simp [seedSummary, h0]

/-- Claim C2: if the feed download fails or the downloaded body is
malformed (bozo), `fetch_rss` returns an empty list of new articles and
leaves storage unchanged; the embedding is a total function, so no
exception propagates. -/
theorem fetch_rss_soft_failure (env : FetchEnv) (db : DB) (m : Nat) :
    (env.feedDownload = none → fetch_rss env db m = ([], db))
    ∧ (∀ body, env.feedDownload = some body → (env.parseFeed body).bozo = true →
        fetch_rss env db m = ([], db)) := by
  constructor
  · intro h; simp [fetch_rss, h]
  · intro body h hbz; simp [fetch_rss, h, hbz]

/-- Concrete check of claim C2: a failed download and a bozo feed both
leave the one-row database untouched and report no new articles. -/
theorem fetch_rss_soft_failure_witness :
    fetch_rss fenvNoneW dbW 5 = ([], dbW) ∧ fetch_rss fenvBozoW dbW 5 = ([], dbW) :=
  ⟨(fetch_rss_soft_failure fenvNoneW dbW 5).1 rfl,
   (fetch_rss_soft_failure fenvBozoW dbW 5).2 "body" rfl rfl⟩

/-- Claim C3 is false as stated: here the page fetch and the extraction
both succeed (the result is returned as a success) yet the extracted text
is empty, so the row's content does not become non-empty. -/
theorem fetch_full_content_nonempty_cex :
    envEmptyW.page "http://x/a" = some "<html><p>T</p></html>"
    ∧ envEmptyW.parseExtract "http://x/a" "<html><p>T</p></html>" = some ""
    ∧ (fetch_full_content envEmptyW dbW 1 "http://x/a").1 = some ""
    ∧ ¬ (∃ r ∈ (fetch_full_content envEmptyW dbW 1 "http://x/a").2.rows,
          ¬ r.content = "") := by
  refine ⟨rfl, rfl, rfl, by decide⟩

/-- Claim C3 (amended): when the page fetch and extraction succeed (and
the row update goes through), the row's content becomes the extracted
text — non-empty whenever that text is non-empty — and its `fetched_at`
is set to the update clock; when the fetch or the parse fails, the step
returns no content and the database is entirely unchanged. -/
theorem fetch_full_content_postconditions (env : IngestEnv) (db : DB)
    (article_id : Nat) (url : String) :
    (∀ html text, env.page url = some html →
        env.parseExtract url html = some text →
        env.updateFails article_id = false →
        fetch_full_content env db article_id url
          = (some text, updateContent db article_id text env.nowUpdate)
        ∧ ∀ r ∈ db.rows, r.id = article_id →
            { r with content := text, fetched_at := env.nowUpdate }
              ∈ (fetch_full_content env db article_id url).2.rows)
    ∧ (env.page url = none →
        fetch_full_content env db article_id url = (none, db))
    ∧ (∀ html, env.page url = some html → env.parseExtract url html = none →
        fetch_full_content env db article_id url = (none, db)) := by
  refine ⟨?_, ?_, ?_⟩
  · intro html text hp hx hu
    have hres : fetch_full_content env db article_id url
        = (some text, updateContent db article_id text env.nowUpdate) := by
      simp [fetch_full_content, hp, hx, hu]
    refine ⟨hres, ?_⟩
    intro r hr hid
    rw [hres]
    simp only [updateContent, List.mem_map]
    exact ⟨r, hr, by rw [if_pos hid]⟩
  · intro h; simp [fetch_full_content, h]
  · intro html hp hx; simp [fetch_full_content, hp, hx]

/-- Concrete check of claim C3 (amended): a successful fetch and
extraction of the text `T` updates row 1's content and `fetched_at`. -/
theorem fetch_full_content_postconditions_witness :
    fetch_full_content envOkW dbW 1 "http://x/a"
      = (some "T", updateContent dbW 1 "T" envOkW.nowUpdate) :=
  (((fetch_full_content_postconditions envOkW dbW 1 "http://x/a").1)
      "<html><p>T</p></html>" "T" rfl rfl rfl).1

/-- Claim C10: when the page fetch and the parse succeed but the extractor
yields empty text, the row update is still performed — content is written
as the empty string and `fetched_at` is refreshed — and the empty text is
returned as a success. -/
theorem fetch_full_content_empty_success (env : IngestEnv) (db : DB)
    (article_id : Nat) (url html : String)
    (hp : env.page url = some html)
    (hx : env.parseExtract url html = some "")
    (hu : env.updateFails article_id = false) :
    fetch_full_content env db article_id url
      = (some "", updateContent db article_id "" env.nowUpdate)
    ∧ ∀ r ∈ db.rows, r.id = article_id →
        { r with content := "", fetched_at := env.nowUpdate }
          ∈ (fetch_full_content env db article_id url).2.rows := by
  have hres : fetch_full_content env db article_id url
      = (some "", updateContent db article_id "" env.nowUpdate) := by
    simp [fetch_full_content, hp, hx, hu]
  refine ⟨hres, ?_⟩
  intro r hr hid
  rw [hres]
  simp only [updateContent, List.mem_map]
  exact ⟨r, hr, by rw [if_pos hid]⟩

/-- Concrete check of claim C10: empty extracted text still updates row 1
and is returned as a success. -/
theorem fetch_full_content_empty_success_witness :
    fetch_full_content envEmptyW dbW 1 "http://x/a"
      = (some "", updateContent dbW 1 "" envEmptyW.nowUpdate) :=
  (fetch_full_content_empty_success envEmptyW dbW 1 "http://x/a"
    "<html><p>T</p></html>" rfl rfl rfl).1

/-- Claim C4: every row the loop inserts carries empty content, and an
entry whose insert fails contributes nothing — no returned title, no
enrichment task, no storage change — while the remaining entries are
processed as if it were absent. -/
theorem fetch_rss_insert_failure_skip (env : FetchEnv) (db : DB) (m : Nat)
    (e : Entry) (es : List Entry) (l : String)
    (hl : effLink e = some l) (hf : env.ingest.insertFails l = true) :
    fetch_rss { env with parseFeed := fun _ => ⟨false, e :: es⟩ } db (m + 1)
      = fetch_rss { env with parseFeed := fun _ => ⟨false, es⟩ } db m
    ∧ (∀ (es' : List Entry) (db' : DB),
        ∀ r ∈ (processEntries env.ingest es' db').db.rows,
          r ∈ db'.rows ∨ r.content = "") := by
  constructor
  · obtain ⟨hlink, h0⟩ := effLink_eq_some hl
    cases hfd : env.feedDownload with
    | none => simp [fetch_rss, hfd]
    | some body =>
      have hskip : ∀ db0 : DB, processEntries env.ingest (e :: es.take m) db0
          = processEntries env.ingest (es.take m) db0 := by
        intro db0
        by_cases h1 : existsByLink db0 l
        · simp [processEntries, hlink, h0, h1]
        · simp [processEntries, hlink, h0, h1, hf]
      simp [fetch_rss, hfd, List.take_succ_cons, hskip]
  · exact content_processEntries env.ingest

/-- Concrete check of claim C4: an entry whose link insert fails behaves
exactly like an absent entry, and inserted rows have empty content. -/
theorem fetch_rss_insert_failure_skip_witness :
    fetch_rss { fenvFailW with parseFeed := fun _ => ⟨false, [entryFailW]⟩ } dbW 1
      = fetch_rss { fenvFailW with parseFeed := fun _ => ⟨false, []⟩ } dbW 0
    ∧ (∀ (es' : List Entry) (db' : DB),
        ∀ r ∈ (processEntries fenvFailW.ingest es' db').db.rows,
          r ∈ db'.rows ∨ r.content = "") :=
  fetch_rss_insert_failure_skip fenvFailW dbW 0 entryFailW [] "http://x/fail"
    (by decide) (by decide)

/-- Claim C9: the pipeline considers only the first `max_articles` feed
entries (processing the truncated feed is indistinguishable from the full
one), and an entry lacking a link is skipped — no row, no enrichment —
while the remaining entries are still processed. -/
theorem fetch_rss_entry_selection (env : FetchEnv) (db : DB) (m : Nat)
    (es : List Entry) (e : Entry)
    (he : e.link = none ∨ e.link = some "") :
    fetch_rss { env with parseFeed := fun _ => ⟨false, es⟩ } db m
      = fetch_rss { env with parseFeed := fun _ => ⟨false, es.take m⟩ } db m
    ∧ fetch_rss { env with parseFeed := fun _ => ⟨false, e :: es⟩ } db (m + 1)
      = fetch_rss { env with parseFeed := fun _ => ⟨false, es⟩ } db m := by
  constructor
  · cases hfd : env.feedDownload with
    | none => simp [fetch_rss, hfd]
    | some body => simp [fetch_rss, hfd, List.take_take]
  · cases hfd : env.feedDownload with
    | none => simp [fetch_rss, hfd]
    | some body =>
      have hskip : ∀ db0 : DB, processEntries env.ingest (e :: es.take m) db0
          = processEntries env.ingest (es.take m) db0 := by
        intro db0
        rcases he with h | h <;> simp [processEntries, h]
      simp [fetch_rss, hfd, List.take_succ_cons, hskip]

/-- Concrete check of claim C9: with `max_articles = 1` the feed is cut to
one entry, and a linkless first entry is skipped. -/
theorem fetch_rss_entry_selection_witness :
    fetch_rss { fenvW with parseFeed := fun _ => ⟨false, [entryW]⟩ } dbEmptyW 1
      = fetch_rss { fenvW with parseFeed := fun _ => ⟨false, [entryW].take 1⟩ } dbEmptyW 1
    ∧ fetch_rss { fenvW with parseFeed := fun _ => ⟨false, entryNoLinkW :: [entryW]⟩ }
        dbEmptyW (1 + 1)
      = fetch_rss { fenvW with parseFeed := fun _ => ⟨false, [entryW]⟩ } dbEmptyW 1 :=
  fetch_rss_entry_selection fenvW dbEmptyW 1 [entryW] entryNoLinkW (Or.inl rfl)

/-- Claim C1: for a well-formed database, every pre-existing row survives a
pipeline run unchanged and no new row is added for its link (the dedup
gate runs before every insert), and running the pipeline a second time on
the unchanged feed returns no new articles and leaves storage identical. -/
theorem fetch_rss_dedup_idempotent (env : FetchEnv) (db : DB) (m : Nat)
    (hwf : dbWF db) :
    (∀ r ∈ db.rows, r ∈ (fetch_rss env db m).2.rows
        ∧ countLink (fetch_rss env db m).2 r.link = countLink db r.link)
    ∧ fetch_rss env (fetch_rss env db m).2 m = ([], (fetch_rss env db m).2) := by
  cases hfd : env.feedDownload with
  | none =>
    constructor
    · intro r hr
      exact ⟨by simpa [fetch_rss, hfd] using hr, by simp [fetch_rss, hfd]⟩
    · simp [fetch_rss, hfd]
  | some body =>
    by_cases hbz : (env.parseFeed body).bozo
    · constructor
      · intro r hr
        exact ⟨by simpa [fetch_rss, hfd, hbz] using hr, by simp [fetch_rss, hfd, hbz]⟩
      · simp [fetch_rss, hfd, hbz]
    · have hres : (fetch_rss env db m).2
          = runTasks env.ingest
              (processEntries env.ingest ((env.parseFeed body).entries.take m) db).tasks
              (processEntries env.ingest ((env.parseFeed body).entries.take m) db).db := by
        simp [fetch_rss, hfd, hbz]
      constructor
      · intro r hr
        constructor
        · rw [hres]
          apply mem_runTasks
          · exact mem_processEntries env.ingest _ db r hr
          · intro p hp hpr
            have hle := tasks_le_processEntries env.ingest _ db p hp
            have hlt := hwf r hr
            omega
        · rw [hres, countLink_runTasks]
          exact countLink_processEntries env.ingest r.link _ db (exists_of_mem_rows hr)
      · have hsat : ∀ e ∈ (env.parseFeed body).entries.take m, ∀ l,
            effLink e = some l →
            existsByLink (fetch_rss env db m).2 l = true
            ∨ env.ingest.insertFails l = true := by
          intro e he l hl
          rcases saturated_processEntries env.ingest
              ((env.parseFeed body).entries.take m) db e he l hl with h | h
          · left; rw [hres, existsByLink_runTasks]; exact h
          · right; exact h
        have hnoop := noop_processEntries env.ingest
          ((env.parseFeed body).entries.take m) (fetch_rss env db m).2 hsat
        have hunfold : fetch_rss env (fetch_rss env db m).2 m
            = ((processEntries env.ingest ((env.parseFeed body).entries.take m)
                  (fetch_rss env db m).2).titles,
               runTasks env.ingest
                 (processEntries env.ingest ((env.parseFeed body).entries.take m)
                   (fetch_rss env db m).2).tasks
                 (processEntries env.ingest ((env.parseFeed body).entries.take m)
                   (fetch_rss env db m).2).db) := by
          conv_lhs => rw [fetch_rss]
          simp [hfd, hbz]
        rw [hunfold, hnoop]
        rfl

/-- Concrete check of claim C1: running the pipeline over a one-entry feed
against a one-row store keeps the old row, adds no duplicate of its link,
and a second run changes nothing. -/
theorem fetch_rss_dedup_idempotent_witness :
    (∀ r ∈ dbW.rows, r ∈ (fetch_rss fenvW dbW 10).2.rows
        ∧ countLink (fetch_rss fenvW dbW 10).2 r.link = countLink dbW r.link)
    ∧ fetch_rss fenvW (fetch_rss fenvW dbW 10).2 10 = ([], (fetch_rss fenvW dbW 10).2) :=
  fetch_rss_dedup_idempotent fenvW dbW 10 (by unfold dbWF; decide)

end TechNews
